import Mathlib

/- Shallow embedding of three components of this repository and proofs about
them: the native vote program (programs/native/vote/src/lib.rs), the PoH
cadence service (src/poh_service.rs) and the leader finality computation
(src/compute_leader_finality_service.rs).  Machine integers are modelled as
Nat (no arithmetic here approaches 2^64), byte-level serialization as the
decoded form with an explicit failure value, and fallible code as Except or
Option. -/

/-- Validator public keys and program ids are opaque identifiers, modelled as
natural numbers. -/
abbrev Pubkey := Nat

/-- Modelled from the spec: the vote program's owner identity, an opaque
constant program id that lives in the sdk, outside these sources. -/
def VOTE_PROGRAM_ID : Pubkey := 7777

/-- Modelled from the spec: vote_program::check_id, true exactly on the vote
program's owner identity. -/
def check_id (program_id : Pubkey) : Bool := program_id = VOTE_PROGRAM_ID

/-- A single vote: the tick height the validator has observed
(solana_sdk::vote_program::Vote). -/
structure Vote where
  tick_height : Nat
deriving DecidableEq

/-- Vote account state (solana_sdk::vote_program::VoteProgram): the bounded
vote queue plus the registering validator's identity.  The VecDeque is
modelled as a list whose head is the front (oldest entry) and whose last
element is the back (the most recent vote). -/
structure VoteProgram where
  votes : List Vote
  node_id : Pubkey
deriving DecidableEq

/-- Modelled from the spec: an account as the vote program and the finality
service see it.  Only the owner and the vote-state payload matter here; the
byte encoding belongs to a serialization collaborator, so userdata is kept in
decoded form, with none standing for bytes that do not deserialize as a
VoteProgram. -/
structure Account where
  owner : Pubkey
  userdata : Option VoteProgram
deriving DecidableEq

/-- Modelled from the spec: a keyed account handed to the program entrypoint;
signer_key is some k exactly when the account's key is a valid signer. -/
structure KeyedAccount where
  signer_key : Option Pubkey
  account : Account
deriving DecidableEq

/-- Program errors surfaced by the entrypoint
(solana_sdk::native_program::ProgramError, the variants this program uses). -/
inductive ProgramError where
  | InvalidArgument
  | InvalidUserdata
deriving DecidableEq

/-- Vote instructions (solana_sdk::vote_program::VoteInstruction), kept in
decoded form; none stands for instruction bytes that do not deserialize. -/
inductive VoteInstruction where
  | RegisterAccount
  | NewVote (vote : Vote)
deriving DecidableEq

/-- Bounded vote-queue update performed by the NewVote instruction
(programs/native/vote/src/lib.rs, lines 66-71): when the queue is at capacity
the front (oldest) vote is popped, then the new vote is pushed at the back.
The capacity V stands for the sdk constant MAX_VOTE_HISTORY, whose value
lives outside these sources. -/
def newVoteUpdate (V : Nat) (votes : List Vote) (vote : Vote) : List Vote :=
  if votes.length = V then votes.drop 1 ++ [vote] else votes ++ [vote]

/-- Shallow embedding of the vote program entrypoint
(programs/native/vote/src/lib.rs).  The first two keyed accounts are passed
explicitly (NewVote only touches the first; RegisterAccount also reads and
writes the second).  The state of both accounts is returned on every path,
error paths included, so that mutation or its absence is visible.  V is the
sdk capacity MAX_VOTE_HISTORY. -/
def entrypoint (V : Nat) (a0 a1 : KeyedAccount) (data : Option VoteInstruction) :
    Except ProgramError Unit × KeyedAccount × KeyedAccount :=
  match a0.signer_key with
  | none => (Except.error ProgramError.InvalidArgument, a0, a1)
  | some signer =>
    match data with
    | some VoteInstruction.RegisterAccount =>
      if ¬ check_id a1.account.owner then
        (Except.error ProgramError.InvalidArgument, a0, a1)
      else
        let vote_state : VoteProgram := { votes := [], node_id := signer }
        (Except.ok (), a0,
          { a1 with account := { a1.account with userdata := some vote_state } })
    | some (VoteInstruction.NewVote vote) =>
      if ¬ check_id a0.account.owner then
        (Except.error ProgramError.InvalidArgument, a0, a1)
      else
        match a0.account.userdata with
        | none => (Except.error ProgramError.InvalidUserdata, a0, a1)
        | some vote_state =>
          let vote_state' : VoteProgram :=
            { vote_state with votes := newVoteUpdate V vote_state.votes vote }
          (Except.ok (),
            { a0 with account := { a0.account with userdata := some vote_state' } }, a1)
    | none => (Except.error ProgramError.InvalidUserdata, a0, a1)

instance {ε α : Type} [DecidableEq ε] [DecidableEq α] : DecidableEq (Except ε α)
  | .ok a, .ok b =>
    if h : a = b then isTrue (h ▸ rfl) else isFalse fun hc => h (Except.ok.inj hc)
  | .error a, .error b =>
    if h : a = b then isTrue (h ▸ rfl) else isFalse fun hc => h (Except.error.inj hc)
  | .ok _, .error _ => isFalse fun hc => Except.noConfusion hc
  | .error _, .ok _ => isFalse fun hc => Except.noConfusion hc

lemma foldl_newVoteUpdate_of_le (V : Nat) :
    ∀ (vs : List Vote) (acc : List Vote), acc.length + vs.length ≤ V →
      List.foldl (newVoteUpdate V) acc vs = acc ++ vs := by
  intro vs
  induction vs with
  | nil => intro acc _; simp
  | cons v rest ih =>
    intro acc hlen
    simp only [List.length_cons] at hlen
    have hne : acc.length ≠ V := by omega
    have hstep : newVoteUpdate V acc v = acc ++ [v] := by
      simp [newVoteUpdate, hne]
    simp only [List.foldl_cons, hstep]
    have harg : (acc ++ [v]).length + rest.length ≤ V := by
      simp only [List.length_append, List.length_cons, List.length_nil]
      omega
    rw [ih (acc ++ [v]) harg, List.append_assoc]
    simp

lemma foldl_newVoteUpdate_capacity (V : Nat) (hV : 1 ≤ V) (vs : List Vote)
    (hlen : vs.length = V + 1) :
    List.foldl (newVoteUpdate V) [] vs = vs.drop 1 := by
  rcases List.eq_nil_or_concat vs with hnil | ⟨ws, w, rfl⟩
  · subst hnil; simp at hlen
  · have hws : ws.length = V := by
      simp only [List.concat_eq_append, List.length_append, List.length_cons,
        List.length_nil] at hlen
      omega
    rw [List.concat_eq_append, List.foldl_append]
    have hfold : List.foldl (newVoteUpdate V) [] ws = ws := by
      simpa using foldl_newVoteUpdate_of_le V ws [] (by simp [hws])
    rw [hfold]
    simp only [List.foldl_cons, List.foldl_nil]
    cases ws with
    | nil =>
      exfalso
      simp only [List.length_nil] at hws
      omega
    | cons a ws' =>
      simp [newVoteUpdate, hws]

/-- C5: the vote queue never exceeds capacity V, NewVote at capacity evicts
the oldest entry first and then appends, so V + 1 insertions starting from an
empty queue leave exactly the V most recent votes in submission order with
the oldest absent; and the entrypoint's NewVote success path performs exactly
this queue update on the stored state. -/
theorem vote_history_bounded_fifo (V : Nat) (hV : 1 ≤ V) :
    (∀ (votes : List Vote) (v : Vote), votes.length ≤ V →
       (newVoteUpdate V votes v).length ≤ V)
  ∧ (∀ vs : List Vote, vs.length = V + 1 →
       List.foldl (newVoteUpdate V) [] vs = vs.drop 1)
  ∧ (∀ (oldest : Vote) (t : List Vote), (oldest :: t).length = V + 1 →
       (oldest :: t).Nodup → oldest ∉ List.foldl (newVoteUpdate V) [] (oldest :: t))
  ∧ (∀ (a0 a1 : KeyedAccount) (s : Pubkey) (st : VoteProgram) (v : Vote),
       a0.signer_key = some s → check_id a0.account.owner = true →
       a0.account.userdata = some st →
       entrypoint V a0 a1 (some (VoteInstruction.NewVote v)) =
         (Except.ok (),
           { a0 with account := { a0.account with
               userdata := some { st with votes := newVoteUpdate V st.votes v } } },
           a1)) := by
  refine ⟨?_, ?_, ?_, ?_⟩
  · intro votes v hle
    by_cases hl : votes.length = V
    · rw [newVoteUpdate, if_pos hl]
      simp only [List.length_append, List.length_drop, List.length_cons, List.length_nil]
      omega
    · rw [newVoteUpdate, if_neg hl]
      simp only [List.length_append, List.length_cons, List.length_nil]
      omega
  · intro vs hlen
    exact foldl_newVoteUpdate_capacity V hV vs hlen
  · intro oldest t hlen hnodup
    rw [foldl_newVoteUpdate_capacity V hV _ hlen]
    simpa using (List.nodup_cons.mp hnodup).1
  · intro a0 a1 s st v hs hown hdata
    simp [entrypoint, hs, hown, hdata]

/-- Witness for C5 at capacity V = 2 with three concrete votes. -/
theorem vote_history_bounded_fifo_witness :
    (newVoteUpdate 2 [⟨1⟩, ⟨2⟩] ⟨3⟩).length ≤ 2
  ∧ List.foldl (newVoteUpdate 2) [] [⟨1⟩, ⟨2⟩, ⟨3⟩] = [⟨2⟩, ⟨3⟩]
  ∧ (⟨1⟩ : Vote) ∉ List.foldl (newVoteUpdate 2) [] [⟨1⟩, ⟨2⟩, ⟨3⟩]
  ∧ entrypoint 2 ⟨some 5, ⟨VOTE_PROGRAM_ID, some ⟨[⟨1⟩, ⟨2⟩], 5⟩⟩⟩ ⟨none, ⟨0, none⟩⟩
      (some (VoteInstruction.NewVote ⟨3⟩)) =
      (Except.ok (), ⟨some 5, ⟨VOTE_PROGRAM_ID, some ⟨[⟨2⟩, ⟨3⟩], 5⟩⟩⟩, ⟨none, ⟨0, none⟩⟩) := by
  have h := vote_history_bounded_fifo 2 (by decide)
  refine ⟨h.1 [⟨1⟩, ⟨2⟩] ⟨3⟩ (by decide), h.2.1 [⟨1⟩, ⟨2⟩, ⟨3⟩] (by decide),
    h.2.2.1 ⟨1⟩ [⟨2⟩, ⟨3⟩] (by decide) (by decide), ?_⟩
  have h4 := h.2.2.2 ⟨some 5, ⟨VOTE_PROGRAM_ID, some ⟨[⟨1⟩, ⟨2⟩], 5⟩⟩⟩ ⟨none, ⟨0, none⟩⟩
    5 ⟨[⟨1⟩, ⟨2⟩], 5⟩ ⟨3⟩ rfl (by decide) rfl
  rw [h4]
  decide

/-- C8: the three instruction-level error cases of the vote program, missing
signer on the first account, RegisterAccount target not owned by the vote
program, and NewVote account bytes that do not deserialize, each reject the
instruction with the stated error and leave both accounts exactly as they
were. -/
theorem vote_errors_atomic (V : Nat) :
    (∀ (a0 a1 : KeyedAccount) (data : Option VoteInstruction), a0.signer_key = none →
       entrypoint V a0 a1 data = (Except.error ProgramError.InvalidArgument, a0, a1))
  ∧ (∀ (a0 a1 : KeyedAccount) (s : Pubkey), a0.signer_key = some s →
       check_id a1.account.owner = false →
       entrypoint V a0 a1 (some VoteInstruction.RegisterAccount) =
         (Except.error ProgramError.InvalidArgument, a0, a1))
  ∧ (∀ (a0 a1 : KeyedAccount) (s : Pubkey) (v : Vote), a0.signer_key = some s →
       check_id a0.account.owner = true → a0.account.userdata = none →
       entrypoint V a0 a1 (some (VoteInstruction.NewVote v)) =
         (Except.error ProgramError.InvalidUserdata, a0, a1)) := by
  refine ⟨?_, ?_, ?_⟩
  · intro a0 a1 data hs
    simp [entrypoint, hs]
  · intro a0 a1 s hs hown
    simp [entrypoint, hs, hown]
  · intro a0 a1 s v hs hown hdata
    simp [entrypoint, hs, hown, hdata]

/-- Witness for C8: the three error cases at concrete accounts. -/
theorem vote_errors_atomic_witness :
    entrypoint 2 ⟨none, ⟨VOTE_PROGRAM_ID, none⟩⟩ ⟨none, ⟨0, none⟩⟩
      (some VoteInstruction.RegisterAccount) =
      (Except.error ProgramError.InvalidArgument, ⟨none, ⟨VOTE_PROGRAM_ID, none⟩⟩,
        ⟨none, ⟨0, none⟩⟩)
  ∧ entrypoint 2 ⟨some 5, ⟨0, none⟩⟩ ⟨none, ⟨0, none⟩⟩
      (some VoteInstruction.RegisterAccount) =
      (Except.error ProgramError.InvalidArgument, ⟨some 5, ⟨0, none⟩⟩, ⟨none, ⟨0, none⟩⟩)
  ∧ entrypoint 2 ⟨some 5, ⟨VOTE_PROGRAM_ID, none⟩⟩ ⟨none, ⟨0, none⟩⟩
      (some (VoteInstruction.NewVote ⟨3⟩)) =
      (Except.error ProgramError.InvalidUserdata, ⟨some 5, ⟨VOTE_PROGRAM_ID, none⟩⟩,
        ⟨none, ⟨0, none⟩⟩) := by
  have h := vote_errors_atomic 2
  exact ⟨h.1 ⟨none, ⟨VOTE_PROGRAM_ID, none⟩⟩ ⟨none, ⟨0, none⟩⟩ _ rfl,
    h.2.1 ⟨some 5, ⟨0, none⟩⟩ ⟨none, ⟨0, none⟩⟩ 5 rfl (by decide),
    h.2.2 ⟨some 5, ⟨VOTE_PROGRAM_ID, none⟩⟩ ⟨none, ⟨0, none⟩⟩ 5 ⟨3⟩ rfl (by decide) rfl⟩

/-- C9: a correctly signed NewVote against an account not owned by the vote
program fails with InvalidArgument, for every possible userdata, parseable or
not, hence before deserialization is attempted, and mutates no account. -/
theorem newvote_ownership_check (V : Nat) (a0 a1 : KeyedAccount) (s : Pubkey) (v : Vote)
    (hs : a0.signer_key = some s) (hown : check_id a0.account.owner = false) :
    entrypoint V a0 a1 (some (VoteInstruction.NewVote v)) =
      (Except.error ProgramError.InvalidArgument, a0, a1) := by
  simp [entrypoint, hs, hown]

/-- Witness for C9: a signed NewVote against a non-vote-owned account whose
userdata even holds perfectly parseable vote state. -/
theorem newvote_ownership_check_witness :
    entrypoint 2 ⟨some 5, ⟨0, some ⟨[⟨1⟩], 5⟩⟩⟩ ⟨none, ⟨0, none⟩⟩
      (some (VoteInstruction.NewVote ⟨3⟩)) =
      (Except.error ProgramError.InvalidArgument, ⟨some 5, ⟨0, some ⟨[⟨1⟩], 5⟩⟩⟩,
        ⟨none, ⟨0, none⟩⟩) :=
  newvote_ownership_check 2 ⟨some 5, ⟨0, some ⟨[⟨1⟩], 5⟩⟩⟩ ⟨none, ⟨0, none⟩⟩ 5 ⟨3⟩
    rfl (by decide)

/-- C10: RegisterAccount never inspects existing vote state; on a
vote-program-owned target that already holds a VoteProgram it overwrites it
with an empty vote queue and node_id equal to the current signer. -/
theorem register_overwrites (V : Nat) (a0 a1 : KeyedAccount) (s : Pubkey)
    (prior : VoteProgram) (hs : a0.signer_key = some s)
    (hown : check_id a1.account.owner = true) (hprior : a1.account.userdata = some prior) :
    entrypoint V a0 a1 (some VoteInstruction.RegisterAccount) =
      (Except.ok (), a0,
        { a1 with account := { a1.account with userdata := some { votes := [], node_id := s } } }) := by
  simp [entrypoint, hs, hown]

/-- Witness for C10: a registered account with a non-empty vote history is
reset to empty votes under the new signer. -/
theorem register_overwrites_witness :
    entrypoint 2 ⟨some 9, ⟨VOTE_PROGRAM_ID, none⟩⟩
      ⟨none, ⟨VOTE_PROGRAM_ID, some ⟨[⟨1⟩, ⟨2⟩], 5⟩⟩⟩ (some VoteInstruction.RegisterAccount) =
      (Except.ok (), ⟨some 9, ⟨VOTE_PROGRAM_ID, none⟩⟩,
        ⟨none, ⟨VOTE_PROGRAM_ID, some ⟨[], 9⟩⟩⟩) := by
  have h := register_overwrites 2 ⟨some 9, ⟨VOTE_PROGRAM_ID, none⟩⟩
    ⟨none, ⟨VOTE_PROGRAM_ID, some ⟨[⟨1⟩, ⟨2⟩], 5⟩⟩⟩ 9 ⟨[⟨1⟩, ⟨2⟩], 5⟩ rfl (by decide) rfl
  rw [h]

/-- Finality outcome of the leader finality service
(src/compute_leader_finality_service.rs, FinalityError). -/
inductive FinalityError where
  | NoValidSupermajority
deriving DecidableEq

/-- Modelled from the spec: a fire-and-forget metrics measurement; the sink
is a collaborator, so emissions are collected in a list. -/
structure Metric where
  name : String
  duration_ms : Nat
deriving DecidableEq

/-- One step of the vote/stake snapshot loop of
get_last_supermajority_timestamp (src/compute_leader_finality_service.rs,
lines 39-70): accounts not owned by the vote program or whose userdata does
not deserialize are skipped; the leader's own vote account is skipped; every
other vote account adds its stake to the running total, and contributes a
pair (most recent vote tick height, stake) only when its vote history is
non-empty (votes.back() on the VecDeque is the last list element). -/
def scanStep (stakeOf : Pubkey → Nat) (leader_id : Pubkey)
    (acc : Nat × List (Nat × Nat)) (account : Account) : Nat × List (Nat × Nat) :=
  if check_id account.owner then
    match account.userdata with
    | some vote_state =>
      if leader_id = vote_state.node_id then acc
      else
        match vote_state.votes.getLast? with
        | some vote =>
          (acc.1 + stakeOf vote_state.node_id,
           acc.2 ++ [(vote.tick_height, stakeOf vote_state.node_id)])
        | none => (acc.1 + stakeOf vote_state.node_id, acc.2)
    | none => acc
  else acc

/-- The snapshot fold of get_last_supermajority_timestamp: total stake plus
the collected (tick height, stake) pairs. -/
def scanAccounts (stakeOf : Pubkey → Nat) (leader_id : Pubkey)
    (accounts : List Account) : Nat × List (Nat × Nat) :=
  accounts.foldl (scanStep stakeOf leader_id) (0, [])

/-- The supermajority threshold computed at line 72:
floor of 2 times the scanned total stake over 3. -/
def superMajorityStake (stakeOf : Pubkey → Nat) (leader_id : Pubkey)
    (accounts : List Account) : Nat :=
  2 * (scanAccounts stakeOf leader_id accounts).1 / 3

/-- Definition following the spec's words (section 4.4 Inputs), for
comparison with the code's total: the sum of the stakes of eligible voters
only, eligibility excluding the leader's vote account and any voter with an
empty vote history. -/
def specEligibleStake (stakeOf : Pubkey → Nat) (leader_id : Pubkey)
    (accounts : List Account) : Nat :=
  (accounts.filterMap (fun account =>
    if check_id account.owner then
      match account.userdata with
      | some vote_state =>
        if leader_id = vote_state.node_id then none
        else if vote_state.votes.isEmpty then none
        else some (stakeOf vote_state.node_id)
      | none => none
    else none)).sum

/-- Total stake as the code actually accumulates it, written as a clean sum:
the stakes of all accounts owned by the vote program whose userdata parses
and whose node is not the leader, vote history empty or not. -/
def allVoterStakeSum (stakeOf : Pubkey → Nat) (leader_id : Pubkey)
    (accounts : List Account) : Nat :=
  (accounts.filterMap (fun account =>
    if check_id account.owner then
      match account.userdata with
      | some vote_state =>
        if leader_id = vote_state.node_id then none
        else some (stakeOf vote_state.node_id)
      | none => none
    else none)).sum

lemma scanFold_fst (stakeOf : Pubkey → Nat) (leader_id : Pubkey) :
    ∀ (accounts : List Account) (t0 : Nat) (l0 : List (Nat × Nat)),
      (accounts.foldl (scanStep stakeOf leader_id) (t0, l0)).1 =
        t0 + allVoterStakeSum stakeOf leader_id accounts := by
  intro accounts
  induction accounts with
  | nil => intro t0 l0; simp [allVoterStakeSum]
  | cons a rest ih =>
    intro t0 l0
    rw [List.foldl_cons]
    by_cases hc : check_id a.owner
    · cases hud : a.userdata with
      | none =>
        have hstep : scanStep stakeOf leader_id (t0, l0) a = (t0, l0) := by
          simp [scanStep, hc, hud]
        have hsum : allVoterStakeSum stakeOf leader_id (a :: rest) =
            allVoterStakeSum stakeOf leader_id rest := by
          simp [allVoterStakeSum, List.filterMap_cons, hc, hud]
        rw [hstep, ih t0 l0, hsum]
      | some vs =>
        by_cases hl : leader_id = vs.node_id
        · have hstep : scanStep stakeOf leader_id (t0, l0) a = (t0, l0) := by
            simp [scanStep, hc, hud, hl]
          have hsum : allVoterStakeSum stakeOf leader_id (a :: rest) =
              allVoterStakeSum stakeOf leader_id rest := by
            simp [allVoterStakeSum, List.filterMap_cons, hc, hud, hl]
          rw [hstep, ih t0 l0, hsum]
        · have hsum : allVoterStakeSum stakeOf leader_id (a :: rest) =
              stakeOf vs.node_id + allVoterStakeSum stakeOf leader_id rest := by
            simp [allVoterStakeSum, List.filterMap_cons, hc, hud, hl]
          cases hlast : vs.votes.getLast? with
          | none =>
            have hstep : scanStep stakeOf leader_id (t0, l0) a =
                (t0 + stakeOf vs.node_id, l0) := by
              simp [scanStep, hc, hud, hl, hlast]
            rw [hstep, ih (t0 + stakeOf vs.node_id) l0, hsum]
            omega
          | some v =>
            have hstep : scanStep stakeOf leader_id (t0, l0) a =
                (t0 + stakeOf vs.node_id, l0 ++ [(v.tick_height, stakeOf vs.node_id)]) := by
              simp [scanStep, hc, hud, hl, hlast]
            rw [hstep, ih (t0 + stakeOf vs.node_id) (l0 ++ [(v.tick_height, stakeOf vs.node_id)]),
              hsum]
            omega
    · have hstep : scanStep stakeOf leader_id (t0, l0) a = (t0, l0) := by
        simp [scanStep, hc]
      have hsum : allVoterStakeSum stakeOf leader_id (a :: rest) =
          allVoterStakeSum stakeOf leader_id rest := by
        simp [allVoterStakeSum, List.filterMap_cons, hc]
      rw [hstep, ih t0 l0, hsum]

/-- Concrete snapshot refuting C1's eligibility condition: voter 1 has a
registered, parseable vote account with an empty vote history, voter 2 has
one vote; both have stake 3 and neither is the leader (99). -/
def c1Accounts : List Account :=
  [⟨VOTE_PROGRAM_ID, some ⟨[], 1⟩⟩, ⟨VOTE_PROGRAM_ID, some ⟨[⟨5⟩], 2⟩⟩]

/-- Constant stake function assigning stake 3 to every node. -/
def stakeThree : Pubkey → Nat := fun _ => 3

/-- Counterexample to C1: the threshold the code computes counts the
empty-history voter's stake (total 6, threshold 4), while the spec's
eligible-voters-only total gives 3, threshold 2.  A validator with a
registered vote account but empty vote history does contribute to
total_stake. -/
theorem threshold_eligibility_counterexample :
    superMajorityStake stakeThree 99 c1Accounts = 4
  ∧ 2 * specEligibleStake stakeThree 99 c1Accounts / 3 = 2
  ∧ superMajorityStake stakeThree 99 c1Accounts ≠
      2 * specEligibleStake stakeThree 99 c1Accounts / 3 := by
  refine ⟨by decide, by decide, by decide⟩

/-- C1 (amended): the supermajority threshold equals
floor(2 x total_stake / 3) where total_stake sums the stakes of all accounts
owned by the vote program whose userdata parses and whose node is not the
active leader, including voters with an empty vote history; empty-history
voters are excluded only from the (tick height, stake) pairs, not from
total_stake. -/
theorem threshold_uses_all_registered_stake (stakeOf : Pubkey → Nat)
    (leader_id : Pubkey) (accounts : List Account) :
    (scanAccounts stakeOf leader_id accounts).1 =
      allVoterStakeSum stakeOf leader_id accounts
  ∧ superMajorityStake stakeOf leader_id accounts =
      2 * allVoterStakeSum stakeOf leader_id accounts / 3 := by
  have h : (scanAccounts stakeOf leader_id accounts).1 =
      allVoterStakeSum stakeOf leader_id accounts := by
    simpa using scanFold_fst stakeOf leader_id accounts 0 []
  exact ⟨h, by rw [superMajorityStake, h]⟩

/-- Descending-tick-height ordering on (tick height, stake) pairs. -/
def tickRel : (Nat × Nat) → (Nat × Nat) → Prop := fun a b => b.1 ≤ a.1

instance : DecidableRel tickRel := fun a b => Nat.decLe b.1 a.1

instance : IsTotal (Nat × Nat) tickRel :=
  ⟨fun a b => Nat.le_total b.1 a.1⟩

instance : IsTrans (Nat × Nat) tickRel :=
  ⟨fun _ _ _ h1 h2 => le_trans h2 h1⟩

/-- Sorting the (tick height, stake) pairs by tick height descending. -/
def sortDesc (pairs : List (Nat × Nat)) : List (Nat × Nat) :=
  List.insertionSort tickRel pairs

/-- Modelled from the spec: the selection loop of Bank::get_finality_timestamp
(section 4.4 step 3 and the section 6 ledger contract; the function itself
lives in bank.rs, outside these sources).  Walk the pairs in descending tick
height order accumulating stake, and return the first tick height at which
the running total strictly exceeds the threshold.  The strict comparison is
fixed by the in-repo test test_compute_finality
(src/compute_leader_finality_service.rs), which asserts that a cumulative
stake exactly equal to the threshold does not confirm. -/
def firstReach (threshold : Nat) : Nat → List (Nat × Nat) → Option Nat
  | _, [] => none
  | total, (t, s) :: rest =>
    if threshold < total + s then some t else firstReach threshold (total + s) rest

/-- The confirmed tick height selected from an unsorted pair list. -/
def selectConfirmedTick (pairs : List (Nat × Nat)) (threshold : Nat) : Option Nat :=
  firstReach threshold 0 (sortDesc pairs)

/-- Modelled from the spec: Bank::get_finality_timestamp maps the selected
tick height to its recorded timestamp through the ledger's
tick-height-to-timestamp record tsMap, absent entries included. -/
def get_finality_timestamp (tsMap : Nat → Option Nat) (pairs : List (Nat × Nat))
    (threshold : Nat) : Option Nat :=
  (selectConfirmedTick pairs threshold).bind tsMap

/-- Shallow embedding of
ComputeLeaderFinalityService::get_last_supermajority_timestamp
(src/compute_leader_finality_service.rs, lines 31-92).  Returns the
supermajority timestamp, or the NoValidSupermajority error after emitting a
staleness metric exactly when the previous valid timestamp is non-zero;
emitted metrics are returned alongside the result. -/
def get_last_supermajority_timestamp (accounts : List Account)
    (stakeOf : Pubkey → Nat) (tsMap : Nat → Option Nat) (leader_id : Pubkey)
    (now last_valid_validator_timestamp : Nat) :
    Except FinalityError Nat × List Metric :=
  match get_finality_timestamp tsMap (scanAccounts stakeOf leader_id accounts).2
      (superMajorityStake stakeOf leader_id accounts) with
  | some ts => (Except.ok ts, [])
  | none =>
    (Except.error FinalityError.NoValidSupermajority,
     if last_valid_validator_timestamp ≠ 0 then
       [⟨"leader-finality", now - last_valid_validator_timestamp⟩]
     else [])

/-- The state the finality service maintains: the last valid validator
timestamp held by the polling loop, and the finality value last stored into
the bank via set_finality. -/
structure FinalityState where
  last_valid_validator_timestamp : Nat
  bank_finality : Nat
deriving DecidableEq

/-- Shallow embedding of ComputeLeaderFinalityService::compute_finality
(src/compute_leader_finality_service.rs, lines 94-117): on success update the
last valid timestamp and the bank finality and emit a duration metric; on
NoValidSupermajority leave the state untouched. -/
def compute_finality (accounts : List Account) (stakeOf : Pubkey → Nat)
    (tsMap : Nat → Option Nat) (leader_id : Pubkey) (now : Nat)
    (st : FinalityState) : FinalityState × List Metric :=
  match get_last_supermajority_timestamp accounts stakeOf tsMap leader_id now
      st.last_valid_validator_timestamp with
  | (Except.ok super_majority_timestamp, ms) =>
    ({ last_valid_validator_timestamp := super_majority_timestamp,
       bank_finality := now - super_majority_timestamp },
     ms ++ [⟨"leader-finality", now - super_majority_timestamp⟩])
  | (Except.error _, ms) => (st, ms)

/-- Accumulated stake of all voters whose latest vote tick height is at least
T. -/
def cumAtLeast (pairs : List (Nat × Nat)) (T : Nat) : Nat :=
  ((pairs.filter fun p => decide (T ≤ p.1)).map Prod.snd).sum

lemma cumAtLeast_cons (t s T : Nat) (rest : List (Nat × Nat)) :
    cumAtLeast ((t, s) :: rest) T = (if T ≤ t then s else 0) + cumAtLeast rest T := by
  by_cases h : T ≤ t <;> simp [cumAtLeast, List.filter_cons, h]

lemma cumAtLeast_perm {l₁ l₂ : List (Nat × Nat)} (h : List.Perm l₁ l₂) (T : Nat) :
    cumAtLeast l₁ T = cumAtLeast l₂ T :=
  ((h.filter _).map Prod.snd).sum_eq

lemma cumAtLeast_pos_mem {rest : List (Nat × Nat)} {t : Nat}
    (h : cumAtLeast rest t ≠ 0) : ∃ q ∈ rest, t ≤ q.1 := by
  by_contra hc
  push_neg at hc
  apply h
  have : rest.filter (fun p => decide (t ≤ p.1)) = [] := by
    rw [List.filter_eq_nil_iff]
    intro q hq
    simpa using Nat.not_le.mpr (hc q hq)
  simp [cumAtLeast, this]

lemma firstReach_some_spec :
    ∀ (S : List (Nat × Nat)), List.Sorted tickRel S →
      ∀ (threshold total T : Nat), firstReach threshold total S = some T →
        T ∈ S.map Prod.fst ∧ threshold < total + cumAtLeast S T ∧
        ∀ T' ∈ S.map Prod.fst, threshold < total + cumAtLeast S T' → T' ≤ T := by
  intro S
  induction S with
  | nil => intro _ threshold total T h; simp [firstReach] at h
  | cons p rest ih =>
    obtain ⟨t, s⟩ := p
    intro hsorted threshold total T h
    have hrest : List.Sorted tickRel rest := hsorted.of_cons
    have hhead : ∀ q ∈ rest, q.1 ≤ t := fun q hq => List.rel_of_sorted_cons hsorted q hq
    simp only [firstReach] at h
    by_cases hcase : threshold < total + s
    · rw [if_pos hcase] at h
      have hT : t = T := Option.some.inj h
      subst hT
      refine ⟨by simp, ?_, ?_⟩
      · rw [cumAtLeast_cons, if_pos le_rfl]
        omega
      · intro T' hT' _
        simp only [List.map_cons, List.mem_cons] at hT'
        rcases hT' with rfl | hT'mem
        · exact le_rfl
        · obtain ⟨q, hq, rfl⟩ := List.mem_map.mp hT'mem
          exact hhead q hq
    · rw [if_neg hcase] at h
      obtain ⟨hmem, hcum, hmax⟩ := ih hrest threshold (total + s) T h
      have hTle : T ≤ t := by
        obtain ⟨q, hq, rfl⟩ := List.mem_map.mp hmem
        exact hhead q hq
      refine ⟨by simp [hmem], ?_, ?_⟩
      · rw [cumAtLeast_cons, if_pos hTle]
        omega
      · intro T' hT' hq
        simp only [List.map_cons, List.mem_cons] at hT'
        rcases hT' with rfl | hT'mem
        · rw [cumAtLeast_cons, if_pos le_rfl] at hq
          by_cases hz : cumAtLeast rest T' = 0
          · rw [hz] at hq
            omega
          · obtain ⟨q, hqr, hqt⟩ := cumAtLeast_pos_mem hz
            have hq1 : q.1 = T' := le_antisymm (hhead q hqr) hqt
            have hle : q.1 ≤ T := by
              apply hmax q.1 (List.mem_map_of_mem Prod.fst hqr)
              rw [hq1]
              omega
            omega
        · apply hmax T' hT'mem
          have hT'le : T' ≤ t := by
            obtain ⟨q2, hq2, rfl⟩ := List.mem_map.mp hT'mem
            exact hhead q2 hq2
          rw [cumAtLeast_cons, if_pos hT'le] at hq
          omega

lemma firstReach_isSome :
    ∀ (S : List (Nat × Nat)), List.Sorted tickRel S →
      ∀ (threshold total : Nat),
        (∃ T ∈ S.map Prod.fst, threshold < total + cumAtLeast S T) →
        (firstReach threshold total S).isSome := by
  intro S
  induction S with
  | nil => intro _ threshold total h; simp at h
  | cons p rest ih =>
    obtain ⟨t, s⟩ := p
    intro hsorted threshold total hex
    have hrest : List.Sorted tickRel rest := hsorted.of_cons
    have hhead : ∀ q ∈ rest, q.1 ≤ t := fun q hq => List.rel_of_sorted_cons hsorted q hq
    by_cases hcase : threshold < total + s
    · simp [firstReach, hcase]
    · simp only [firstReach, if_neg hcase]
      obtain ⟨T, hTmem, hq⟩ := hex
      simp only [List.map_cons, List.mem_cons] at hTmem
      apply ih hrest threshold (total + s)
      rcases hTmem with rfl | hTmem
      · rw [cumAtLeast_cons, if_pos le_rfl] at hq
        by_cases hz : cumAtLeast rest T = 0
        · exfalso
          rw [hz] at hq
          omega
        · obtain ⟨q, hqr, hqt⟩ := cumAtLeast_pos_mem hz
          have hq1 : q.1 = T := le_antisymm (hhead q hqr) hqt
          refine ⟨q.1, List.mem_map_of_mem Prod.fst hqr, ?_⟩
          rw [hq1]
          omega
      · refine ⟨T, hTmem, ?_⟩
        have hTle : T ≤ t := by
          obtain ⟨q2, hq2, rfl⟩ := List.mem_map.mp hTmem
          exact hhead q2 hq2
        rw [cumAtLeast_cons, if_pos hTle] at hq
        omega

lemma selectConfirmedTick_some_iff (pairs : List (Nat × Nat)) (threshold T : Nat) :
    selectConfirmedTick pairs threshold = some T ↔
      (T ∈ pairs.map Prod.fst ∧ threshold < cumAtLeast pairs T ∧
       ∀ T' ∈ pairs.map Prod.fst, threshold < cumAtLeast pairs T' → T' ≤ T) := by
  have hperm : List.Perm (sortDesc pairs) pairs := List.perm_insertionSort tickRel pairs
  have hsorted : List.Sorted tickRel (sortDesc pairs) :=
    List.sorted_insertionSort tickRel pairs
  have hmem : ∀ x, x ∈ (sortDesc pairs).map Prod.fst ↔ x ∈ pairs.map Prod.fst :=
    fun x => (hperm.map Prod.fst).mem_iff
  have hcum : ∀ x, cumAtLeast (sortDesc pairs) x = cumAtLeast pairs x :=
    fun x => cumAtLeast_perm hperm x
  constructor
  · intro h
    simp only [selectConfirmedTick] at h
    obtain ⟨h1, h2, h3⟩ := firstReach_some_spec (sortDesc pairs) hsorted threshold 0 T h
    rw [hcum T] at h2
    refine ⟨(hmem T).mp h1, by omega, ?_⟩
    intro T' hT' hq
    exact h3 T' ((hmem T').mpr hT') (by rw [hcum T']; omega)
  · rintro ⟨h1, h2, h3⟩
    have hex : (firstReach threshold 0 (sortDesc pairs)).isSome := by
      apply firstReach_isSome (sortDesc pairs) hsorted threshold 0
      exact ⟨T, (hmem T).mpr h1, by rw [hcum T]; omega⟩
    obtain ⟨T2, hT2⟩ := Option.isSome_iff_exists.mp hex
    obtain ⟨g1, g2, g3⟩ := firstReach_some_spec (sortDesc pairs) hsorted threshold 0 T2 hT2
    have hle1 : T2 ≤ T := h3 T2 ((hmem T2).mp g1) (by rw [← hcum T2]; omega)
    have hle2 : T ≤ T2 := g3 T ((hmem T).mpr h1) (by rw [hcum T]; omega)
    show firstReach threshold 0 (sortDesc pairs) = some T
    rw [hT2]
    exact congrArg some (le_antisymm hle1 hle2)

lemma selectConfirmedTick_none_iff (pairs : List (Nat × Nat)) (threshold : Nat) :
    selectConfirmedTick pairs threshold = none ↔
      ∀ T ∈ pairs.map Prod.fst, cumAtLeast pairs T ≤ threshold := by
  constructor
  · intro h T hT
    by_contra hgt
    push_neg at hgt
    have hperm : List.Perm (sortDesc pairs) pairs := List.perm_insertionSort tickRel pairs
    have hsorted : List.Sorted tickRel (sortDesc pairs) :=
      List.sorted_insertionSort tickRel pairs
    have hsome : (firstReach threshold 0 (sortDesc pairs)).isSome := by
      apply firstReach_isSome (sortDesc pairs) hsorted threshold 0
      refine ⟨T, ((hperm.map Prod.fst).mem_iff).mpr hT, ?_⟩
      rw [cumAtLeast_perm hperm T]
      omega
    rw [show firstReach threshold 0 (sortDesc pairs) =
      selectConfirmedTick pairs threshold from rfl, h] at hsome
    simp at hsome
  · intro hall
    cases hsel : selectConfirmedTick pairs threshold with
    | none => rfl
    | some T =>
      obtain ⟨h1, h2, _⟩ := (selectConfirmedTick_some_iff pairs threshold T).mp hsel
      exact absurd h2 (not_lt.mpr (hall T h1))

/-- A registered vote account for node n whose vote history holds the given
tick heights, oldest first. -/
def scenarioVoter (n : Pubkey) (ts : List Nat) : Account :=
  ⟨VOTE_PROGRAM_ID, some ⟨ts.map Vote.mk, n⟩⟩

/-- Constant stake function assigning stake 1 to every node. -/
def stakeOne : Pubkey → Nat := fun _ => 1

/-- A total tick-height-to-timestamp record mapping height t to 100 + t. -/
def tsLinear : Nat → Option Nat := fun t => some (100 + t)

/-- Scenario A of the spec: ten validators of stake 1, the first six voting
tick heights 1 to 6, the other four registered with empty vote histories; the
leader id 0 is none of them. -/
def scenarioAAccounts : List Account :=
  [scenarioVoter 1 [1], scenarioVoter 2 [2], scenarioVoter 3 [3], scenarioVoter 4 [4],
   scenarioVoter 5 [5], scenarioVoter 6 [6], scenarioVoter 7 [], scenarioVoter 8 [],
   scenarioVoter 9 [], scenarioVoter 10 []]

/-- Scenario B of the spec: scenario A after a seventh validator votes tick
height 7. -/
def scenarioBAccounts : List Account :=
  [scenarioVoter 1 [1], scenarioVoter 2 [2], scenarioVoter 3 [3], scenarioVoter 4 [4],
   scenarioVoter 5 [5], scenarioVoter 6 [6], scenarioVoter 7 [7], scenarioVoter 8 [],
   scenarioVoter 9 [], scenarioVoter 10 []]

/-- Counterexample to C2: in the ten-validator scenario with votes at tick
heights 1..6, the threshold is 6 and the accumulated stake at height 1 is 6,
which meets but does not strictly exceed it, so the code returns
NoValidSupermajority rather than the claimed confirmed tick height 1 — the
repository's own test test_compute_finality asserts exactly this outcome. -/
theorem confirmed_tick_scenario_counterexample :
    superMajorityStake stakeOne 0 scenarioAAccounts = 6
  ∧ cumAtLeast (scanAccounts stakeOne 0 scenarioAAccounts).2 1 = 6
  ∧ selectConfirmedTick (scanAccounts stakeOne 0 scenarioAAccounts).2 6 = none
  ∧ (get_last_supermajority_timestamp scenarioAAccounts stakeOne tsLinear 0 500 0).1 =
      Except.error FinalityError.NoValidSupermajority := by
  refine ⟨by decide, by decide, by decide, by decide⟩

/-- C2 (amended): the confirmed tick height, when one is returned, is the
maximum voted tick height T whose accumulated stake (total stake of voters
with latest vote tick height at least T) strictly exceeds the threshold; in
the ten-validator scenario with votes at heights 1..6 nothing is confirmed,
and after a seventh validator votes height 7 the confirmed tick height is 1,
with the timestamp recorded for height 1. -/
theorem confirmed_tick_characterization :
    (∀ (pairs : List (Nat × Nat)) (threshold T : Nat),
       selectConfirmedTick pairs threshold = some T ↔
         (T ∈ pairs.map Prod.fst ∧ threshold < cumAtLeast pairs T ∧
          ∀ T' ∈ pairs.map Prod.fst, threshold < cumAtLeast pairs T' → T' ≤ T))
  ∧ selectConfirmedTick (scanAccounts stakeOne 0 scenarioBAccounts).2 6 = some 1
  ∧ (get_last_supermajority_timestamp scenarioBAccounts stakeOne tsLinear 0 500 0).1 =
      Except.ok 101 := by
  exact ⟨selectConfirmedTick_some_iff, by decide, by decide⟩

/-- Witness for C2: the characterization applied at a concrete pair list. -/
theorem confirmed_tick_characterization_witness :
    5 ∈ ([(5, 4), (9, 1)] : List (Nat × Nat)).map Prod.fst
  ∧ 2 < cumAtLeast [(5, 4), (9, 1)] 5 := by
  have h := (confirmed_tick_characterization.1 [(5, 4), (9, 1)] 2 5).mp (by decide)
  exact ⟨h.1, h.2.1⟩

lemma scanFold_pairs_le (stakeOf : Pubkey → Nat) (leader_id : Pubkey) :
    ∀ (accounts : List Account) (t0 : Nat) (l0 : List (Nat × Nat)),
      (∀ p ∈ l0, p.2 ≤ t0) →
      ∀ p ∈ (accounts.foldl (scanStep stakeOf leader_id) (t0, l0)).2,
        p.2 ≤ (accounts.foldl (scanStep stakeOf leader_id) (t0, l0)).1 := by
  intro accounts
  induction accounts with
  | nil => intro t0 l0 hinv; simpa using hinv
  | cons a rest ih =>
    intro t0 l0 hinv
    rw [List.foldl_cons]
    by_cases hc : check_id a.owner
    · cases hud : a.userdata with
      | none =>
        have hstep : scanStep stakeOf leader_id (t0, l0) a = (t0, l0) := by
          simp [scanStep, hc, hud]
        rw [hstep]
        exact ih t0 l0 hinv
      | some vs =>
        by_cases hl : leader_id = vs.node_id
        · have hstep : scanStep stakeOf leader_id (t0, l0) a = (t0, l0) := by
            simp [scanStep, hc, hud, hl]
          rw [hstep]
          exact ih t0 l0 hinv
        · cases hlast : vs.votes.getLast? with
          | none =>
            have hstep : scanStep stakeOf leader_id (t0, l0) a =
                (t0 + stakeOf vs.node_id, l0) := by
              simp [scanStep, hc, hud, hl, hlast]
            rw [hstep]
            exact ih (t0 + stakeOf vs.node_id) l0
              (fun p hp => le_trans (hinv p hp) (Nat.le_add_right _ _))
          | some v =>
            have hstep : scanStep stakeOf leader_id (t0, l0) a =
                (t0 + stakeOf vs.node_id, l0 ++ [(v.tick_height, stakeOf vs.node_id)]) := by
              simp [scanStep, hc, hud, hl, hlast]
            rw [hstep]
            apply ih (t0 + stakeOf vs.node_id) (l0 ++ [(v.tick_height, stakeOf vs.node_id)])
            intro p hp
            rcases List.mem_append.mp hp with hp1 | hp2
            · exact le_trans (hinv p hp1) (Nat.le_add_right _ _)
            · have : p = (v.tick_height, stakeOf vs.node_id) := by simpa using hp2
              rw [this]
              exact Nat.le_add_left _ _
    · have hstep : scanStep stakeOf leader_id (t0, l0) a = (t0, l0) := by
        simp [scanStep, hc]
      rw [hstep]
      exact ih t0 l0 hinv

lemma scanAccounts_pairs_le (stakeOf : Pubkey → Nat) (leader_id : Pubkey)
    (accounts : List Account) :
    ∀ p ∈ (scanAccounts stakeOf leader_id accounts).2,
      p.2 ≤ (scanAccounts stakeOf leader_id accounts).1 :=
  scanFold_pairs_le stakeOf leader_id accounts 0 [] (by simp)

lemma get_last_error_iff (accounts : List Account) (stakeOf : Pubkey → Nat)
    (tsMap : Nat → Option Nat) (leader_id : Pubkey) (now last : Nat) :
    (get_last_supermajority_timestamp accounts stakeOf tsMap leader_id now last).1 =
        Except.error FinalityError.NoValidSupermajority ↔
      ((∀ T ∈ (scanAccounts stakeOf leader_id accounts).2.map Prod.fst,
          cumAtLeast (scanAccounts stakeOf leader_id accounts).2 T ≤
            superMajorityStake stakeOf leader_id accounts)
       ∨ ∃ T, selectConfirmedTick (scanAccounts stakeOf leader_id accounts).2
                (superMajorityStake stakeOf leader_id accounts) = some T ∧
              tsMap T = none) := by
  cases hsel : selectConfirmedTick (scanAccounts stakeOf leader_id accounts).2
      (superMajorityStake stakeOf leader_id accounts) with
  | none =>
    have hbind : get_finality_timestamp tsMap (scanAccounts stakeOf leader_id accounts).2
        (superMajorityStake stakeOf leader_id accounts) = none := by
      simp [get_finality_timestamp, hsel]
    constructor
    · intro _
      exact Or.inl ((selectConfirmedTick_none_iff _ _).mp hsel)
    · intro _
      simp [get_last_supermajority_timestamp, hbind]
  | some T =>
    cases htm : tsMap T with
    | none =>
      have hbind : get_finality_timestamp tsMap (scanAccounts stakeOf leader_id accounts).2
          (superMajorityStake stakeOf leader_id accounts) = none := by
        simp [get_finality_timestamp, hsel, htm]
      constructor
      · intro _
        exact Or.inr ⟨T, rfl, htm⟩
      · intro _
        simp [get_last_supermajority_timestamp, hbind]
    | some ts =>
      have hbind : get_finality_timestamp tsMap (scanAccounts stakeOf leader_id accounts).2
          (superMajorityStake stakeOf leader_id accounts) = some ts := by
        simp [get_finality_timestamp, hsel, htm]
      constructor
      · intro h
        exfalso
        simp [get_last_supermajority_timestamp, hbind] at h
      · rintro (hall | ⟨T2, hT2, htm2⟩)
        · exfalso
          obtain ⟨h1, h2, _⟩ :=
            (selectConfirmedTick_some_iff _ _ T).mp hsel
          exact absurd h2 (not_lt.mpr (hall T h1))
        · exfalso
          have hTT : T = T2 := Option.some.inj hT2
          rw [← hTT] at htm2
          rw [htm2] at htm
          exact Option.noConfusion htm

/-- Stake function for the C3 counterexample: node 1 holds stake 2, every
other node stake 4. -/
def stakeSplit : Pubkey → Nat := fun n => if n = 1 then 2 else 4

/-- Counterexample to C3: total stake is 6 (non-zero), tick height 5's
accumulated stake 4 reaches the threshold floor(2*6/3) = 4, and the timestamp
mapping is present, yet the outcome is NoValidSupermajority, because the
accumulated stake must strictly exceed the threshold. -/
theorem no_supermajority_condition_counterexample :
    (get_last_supermajority_timestamp c1Accounts stakeSplit tsLinear 99 500 7).1 =
      Except.error FinalityError.NoValidSupermajority
  ∧ (scanAccounts stakeSplit 99 c1Accounts).1 = 6
  ∧ superMajorityStake stakeSplit 99 c1Accounts = 4
  ∧ cumAtLeast (scanAccounts stakeSplit 99 c1Accounts).2 5 = 4
  ∧ tsLinear 5 = some 105 := by
  refine ⟨by decide, by decide, by decide, by decide, by decide⟩

/-- C3 (amended): the computation returns NoValidSupermajority, and no
confirmed tick height or timestamp, exactly when no voted tick height's
accumulated stake strictly exceeds floor(2 x total / 3), or the
tick-height-to-timestamp mapping is absent for the selected height; zero
total stake always yields NoValidSupermajority. -/
theorem no_supermajority_exact_conditions (accounts : List Account)
    (stakeOf : Pubkey → Nat) (tsMap : Nat → Option Nat) (leader_id : Pubkey)
    (now last : Nat) :
    ((get_last_supermajority_timestamp accounts stakeOf tsMap leader_id now last).1 =
        Except.error FinalityError.NoValidSupermajority ↔
      ((∀ T ∈ (scanAccounts stakeOf leader_id accounts).2.map Prod.fst,
          cumAtLeast (scanAccounts stakeOf leader_id accounts).2 T ≤
            superMajorityStake stakeOf leader_id accounts)
       ∨ ∃ T, selectConfirmedTick (scanAccounts stakeOf leader_id accounts).2
                (superMajorityStake stakeOf leader_id accounts) = some T ∧
              tsMap T = none))
  ∧ ((scanAccounts stakeOf leader_id accounts).1 = 0 →
      (get_last_supermajority_timestamp accounts stakeOf tsMap leader_id now last).1 =
        Except.error FinalityError.NoValidSupermajority) := by
  refine ⟨get_last_error_iff accounts stakeOf tsMap leader_id now last, ?_⟩
  intro htotal
  apply (get_last_error_iff accounts stakeOf tsMap leader_id now last).mpr
  left
  intro T hT
  have hts : superMajorityStake stakeOf leader_id accounts = 0 := by
    simp [superMajorityStake, htotal]
  have hcum : cumAtLeast (scanAccounts stakeOf leader_id accounts).2 T = 0 := by
    simp only [cumAtLeast]
    apply List.sum_eq_zero
    intro x hx
    obtain ⟨p, hpf, rfl⟩ := List.mem_map.mp hx
    have hpmem : p ∈ (scanAccounts stakeOf leader_id accounts).2 :=
      (List.mem_filter.mp hpf).1
    have hple := scanAccounts_pairs_le stakeOf leader_id accounts p hpmem
    omega
  rw [hts, hcum]

/-- Witness for C3: a snapshot with no vote accounts at all has zero total
stake and yields NoValidSupermajority. -/
theorem no_supermajority_exact_conditions_witness :
    (get_last_supermajority_timestamp [] stakeOne tsLinear 0 500 0).1 =
      Except.error FinalityError.NoValidSupermajority :=
  (no_supermajority_exact_conditions [] stakeOne tsLinear 0 500 0).2 (by decide)

/-- C4: when a finality poll cycle yields NoValidSupermajority, the finality
state is left completely unchanged, and a staleness metric computed against
the prior confirmed timestamp is emitted exactly when a prior confirmed
timestamp (a non-zero last valid validator timestamp) exists. -/
theorem no_supermajority_preserves_state (accounts : List Account)
    (stakeOf : Pubkey → Nat) (tsMap : Nat → Option Nat) (leader_id : Pubkey)
    (now : Nat) (st : FinalityState)
    (h : (get_last_supermajority_timestamp accounts stakeOf tsMap leader_id now
            st.last_valid_validator_timestamp).1 =
         Except.error FinalityError.NoValidSupermajority) :
    compute_finality accounts stakeOf tsMap leader_id now st =
      (st, if st.last_valid_validator_timestamp ≠ 0 then
             [⟨"leader-finality", now - st.last_valid_validator_timestamp⟩]
           else []) := by
  have hfull : get_last_supermajority_timestamp accounts stakeOf tsMap leader_id now
      st.last_valid_validator_timestamp =
      (Except.error FinalityError.NoValidSupermajority,
       if st.last_valid_validator_timestamp ≠ 0 then
         [⟨"leader-finality", now - st.last_valid_validator_timestamp⟩]
       else []) := by
    unfold get_last_supermajority_timestamp at h ⊢
    cases hg : get_finality_timestamp tsMap (scanAccounts stakeOf leader_id accounts).2
        (superMajorityStake stakeOf leader_id accounts) with
    | some ts =>
      rw [hg] at h
      simp at h
    | none => rfl
  unfold compute_finality
  rw [hfull]

/-- Witness for C4: an empty snapshot with prior timestamp 5 at time 7 leaves
the state untouched and emits one staleness metric of 2 ms. -/
theorem no_supermajority_preserves_state_witness :
    compute_finality [] stakeOne tsLinear 0 7 ⟨5, 77⟩ =
      (⟨5, 77⟩, [⟨"leader-finality", 2⟩]) := by
  have h := no_supermajority_preserves_state [] stakeOne tsLinear 0 7 ⟨5, 77⟩ (by decide)
  rw [h]
  decide

/-- Cadence policy of the PoH service (src/poh_service.rs, Config):
Tick runs the full PoH hash loop, Sleep is the low-power placeholder. -/
inductive Config where
  | tick (num : Nat)
  | sleep (duration_ms : Nat)
deriving DecidableEq

/-- Observable events of the PoH cadence thread: an idle hash advance
(poh.hash()), a suspension (sleep(duration)), a tick (poh.tick()), a read of
the shared poh_exit flag at the end of an iteration, and the final store of
true into that same flag after tick_producer returns (PohService::new,
src/poh_service.rs line 57). -/
inductive Ev where
  | hash
  | sleepEv (duration_ms : Nat)
  | tickEv
  | check (b : Bool)
  | setDone
deriving DecidableEq

/-- Hash events of n successive poh.hash() calls. -/
def hashLoopAux : Nat → List Ev
  | 0 => []
  | n + 1 => Ev.hash :: hashLoopAux n

/-- Embedding of the Rust loop for _ in lo..hi { poh.hash() }: the range
iterator lo..hi yields hi - lo items (none when hi ≤ lo), so the loop body
runs hi - lo times. -/
def hashLoop (lo hi : Nat) : List Ev := hashLoopAux (hi - lo)

/-- One iteration of tick_producer's loop body before the exit check
(src/poh_service.rs, lines 70-80): under Config::Tick(num) the for loop over
1..num performs the idle hash advances, under Config::Sleep(duration) the
thread suspends; either way poh.tick() then runs once. -/
def iterBody : Config → List Ev
  | Config.tick num => hashLoop 1 num ++ [Ev.tickEv]
  | Config.sleep d => [Ev.sleepEv d, Ev.tickEv]

/-- Embedding of PohService::tick_producer (src/poh_service.rs, lines 68-86)
as the event trace of the loop.  i is the index of the current iteration,
flag i the value the shared poh_exit flag is read to hold at the end of
iteration i, and fuel a bound on the number of iterations modelled (none is
returned only when fuel runs out before the flag reads true; the real loop
simply keeps iterating). -/
def tick_producer (cfg : Config) (flag : Nat → Bool) : Nat → Nat → Option (List Ev)
  | _, 0 => none
  | i, fuel + 1 =>
    if flag i then some (iterBody cfg ++ [Ev.check (flag i)])
    else
      (tick_producer cfg flag (i + 1) fuel).map
        (fun tr => (iterBody cfg ++ [Ev.check (flag i)]) ++ tr)

/-- Embedding of the thread closure spawned in PohService::new
(src/poh_service.rs, lines 54-59): run tick_producer, then store true into
poh_exit.  That final store is the completion signal, and it is performed on
the same AtomicBool the cancellation request sets; there is no second
flag. -/
def pohServiceRun (cfg : Config) (flag : Nat → Bool) (fuel : Nat) : Option (List Ev) :=
  (tick_producer cfg flag 0 fuel).map (fun tr => tr ++ [Ev.setDone])

/-- The event blocks of n consecutive loop iterations starting at iteration
index i, each one loop body followed by one flag check. -/
def blocksFrom (cfg : Config) (flag : Nat → Bool) (i : Nat) : Nat → List Ev
  | 0 => []
  | n + 1 => (iterBody cfg ++ [Ev.check (flag i)]) ++ blocksFrom cfg flag (i + 1) n

lemma hashLoopAux_eq_replicate (n : Nat) : hashLoopAux n = List.replicate n Ev.hash := by
  induction n with
  | zero => rfl
  | succ k ih => simp [hashLoopAux, ih, List.replicate_succ]

lemma tick_producer_blocks (cfg : Config) (flag : Nat → Bool) :
    ∀ (fuel i : Nat) (tr : List Ev), tick_producer cfg flag i fuel = some tr →
      ∃ e, i ≤ e ∧ e < i + fuel ∧ flag e = true ∧
        (∀ j, i ≤ j → j < e → flag j = false) ∧
        tr = blocksFrom cfg flag i (e + 1 - i) := by
  intro fuel
  induction fuel with
  | zero => intro i tr h; simp [tick_producer] at h
  | succ k ih =>
    intro i tr h
    simp only [tick_producer] at h
    by_cases hf : flag i
    · rw [if_pos hf] at h
      have htr : tr = iterBody cfg ++ [Ev.check (flag i)] := (Option.some.inj h).symm
      refine ⟨i, le_rfl, by omega, hf, ?_, ?_⟩
      · intro j hj1 hj2
        exact absurd (lt_of_le_of_lt hj1 hj2) (lt_irrefl i)
      · have hone : i + 1 - i = 1 := by omega
        rw [htr, hone]
        simp [blocksFrom]
    · rw [if_neg hf] at h
      cases hrec : tick_producer cfg flag (i + 1) k with
      | none =>
        rw [hrec] at h
        simp at h
      | some tr2 =>
        rw [hrec] at h
        simp only [Option.map_some'] at h
        have htr : tr = (iterBody cfg ++ [Ev.check (flag i)]) ++ tr2 :=
          (Option.some.inj h).symm
        obtain ⟨e, he1, he2, he3, he4, he5⟩ := ih (i + 1) tr2 hrec
        refine ⟨e, by omega, by omega, he3, ?_, ?_⟩
        · intro j hj1 hj2
          rcases Nat.eq_or_lt_of_le hj1 with rfl | hlt
          · exact Bool.eq_false_iff.mpr hf
          · exact he4 j hlt hj2
        · have hsplit : e + 1 - i = (e + 1 - (i + 1)) + 1 := by omega
          rw [hsplit]
          simp only [blocksFrom]
          rw [htr, he5]

lemma tick_producer_terminates (cfg : Config) (flag : Nat → Bool) :
    ∀ (fuel i : Nat), (∃ m, i ≤ m ∧ m < i + fuel ∧ flag m = true) →
      (tick_producer cfg flag i fuel).isSome := by
  intro fuel
  induction fuel with
  | zero =>
    intro i h
    obtain ⟨m, h1, h2, _⟩ := h
    exact absurd h2 (by omega)
  | succ k ih =>
    intro i h
    obtain ⟨m, h1, h2, h3⟩ := h
    simp only [tick_producer]
    by_cases hf : flag i
    · rw [if_pos hf]
      rfl
    · rw [if_neg hf]
      have hm : i + 1 ≤ m := by
        rcases Nat.eq_or_lt_of_le h1 with rfl | hlt
        · exact absurd h3 hf
        · omega
      have hs : (tick_producer cfg flag (i + 1) k).isSome :=
        ih (i + 1) ⟨m, hm, by omega, h3⟩
      cases htp : tick_producer cfg flag (i + 1) k with
      | none => rw [htp] at hs; simp at hs
      | some tr => simp [htp]

lemma count_tickEv_iterBody (cfg : Config) : (iterBody cfg).count Ev.tickEv = 1 := by
  cases cfg with
  | tick num =>
    simp [iterBody, hashLoop, hashLoopAux_eq_replicate, List.count_append,
      List.count_replicate]
  | sleep d =>
    rfl

lemma count_tickEv_blocksFrom (cfg : Config) (flag : Nat → Bool) :
    ∀ (n i : Nat), (blocksFrom cfg flag i n).count Ev.tickEv = n := by
  intro n
  induction n with
  | zero => intro i; simp [blocksFrom]
  | succ m ih =>
    intro i
    simp only [blocksFrom, List.count_append, count_tickEv_iterBody, ih (i + 1)]
    have hchk : List.count Ev.tickEv [Ev.check (flag i)] = 0 := rfl
    rw [hchk]
    omega

/-- Adjacent-pair scanner: true exactly when every check event in the list is
immediately preceded by a tick event, prev being the event just before the
list. -/
def chkFrom (prev : Ev) : List Ev → Bool
  | [] => true
  | e :: rest =>
    (match e, prev with
     | Ev.check _, Ev.tickEv => true
     | Ev.check _, _ => false
     | _, _ => true) && chkFrom e rest

/-- True exactly when every check event of the trace is immediately preceded
by a tick event; the sentinel hash stands for the start of the trace, so a
leading check is rejected. -/
def checksAtBoundaries (tr : List Ev) : Bool := chkFrom Ev.hash tr

def lastEv (p : Ev) : List Ev → Ev
  | [] => p
  | e :: rest => lastEv e rest

lemma lastEv_append_singleton (xs : List Ev) (a p : Ev) :
    lastEv p (xs ++ [a]) = a := by
  induction xs generalizing p with
  | nil => rfl
  | cons x rest ih => exact ih x

lemma chkFrom_append (p : Ev) (xs ys : List Ev) :
    chkFrom p (xs ++ ys) = (chkFrom p xs && chkFrom (lastEv p xs) ys) := by
  induction xs generalizing p with
  | nil => simp [chkFrom, lastEv]
  | cons e rest ih =>
    rw [List.cons_append]
    rw [show chkFrom p (e :: (rest ++ ys)) =
      ((match e, p with
        | Ev.check _, Ev.tickEv => true
        | Ev.check _, _ => false
        | _, _ => true) && chkFrom e (rest ++ ys)) from rfl]
    rw [show chkFrom p (e :: rest) =
      ((match e, p with
        | Ev.check _, Ev.tickEv => true
        | Ev.check _, _ => false
        | _, _ => true) && chkFrom e rest) from rfl]
    rw [show lastEv p (e :: rest) = lastEv e rest from rfl]
    rw [ih e, Bool.and_assoc]

lemma chkFrom_of_no_check (l : List Ev) (h : ∀ b, Ev.check b ∉ l) (p : Ev) :
    chkFrom p l = true := by
  induction l generalizing p with
  | nil => rfl
  | cons e rest ih =>
    have hrest : ∀ b, Ev.check b ∉ rest := by
      intro b hb
      exact h b (List.mem_cons_of_mem e hb)
    cases e with
    | check b => exact absurd (List.mem_cons_self _ _) (h b)
    | hash => simp [chkFrom, ih hrest]
    | sleepEv d => simp [chkFrom, ih hrest]
    | tickEv => simp [chkFrom, ih hrest]
    | setDone => simp [chkFrom, ih hrest]

lemma no_check_iterBody (cfg : Config) : ∀ b, Ev.check b ∉ iterBody cfg := by
  intro b
  cases cfg with
  | tick num =>
    simp only [iterBody, hashLoop, hashLoopAux_eq_replicate, List.mem_append,
      List.mem_replicate, List.mem_singleton]
    rintro (⟨-, h⟩ | h) <;> exact Ev.noConfusion h
  | sleep d =>
    intro hmem
    simp only [iterBody, List.mem_cons, List.not_mem_nil, or_false] at hmem
    rcases hmem with h | h <;> exact Ev.noConfusion h

lemma lastEv_iterBody (cfg : Config) (p : Ev) :
    lastEv p (iterBody cfg) = Ev.tickEv := by
  cases cfg with
  | tick num => exact lastEv_append_singleton _ _ _
  | sleep d => rfl

lemma chkFrom_blocksFrom (cfg : Config) (flag : Nat → Bool) :
    ∀ (n i : Nat) (p : Ev), chkFrom p (blocksFrom cfg flag i n) = true := by
  intro n
  induction n with
  | zero => intro i p; rfl
  | succ m ih =>
    intro i p
    simp only [blocksFrom, List.append_assoc]
    rw [chkFrom_append p (iterBody cfg) ([Ev.check (flag i)] ++ blocksFrom cfg flag (i + 1) m)]
    rw [chkFrom_of_no_check (iterBody cfg) (no_check_iterBody cfg) p]
    rw [lastEv_iterBody cfg p]
    rw [show ([Ev.check (flag i)] ++ blocksFrom cfg flag (i + 1) m) =
      Ev.check (flag i) :: blocksFrom cfg flag (i + 1) m from rfl]
    rw [show chkFrom Ev.tickEv (Ev.check (flag i) :: blocksFrom cfg flag (i + 1) m) =
      (true && chkFrom (Ev.check (flag i)) (blocksFrom cfg flag (i + 1) m)) from rfl]
    rw [ih (i + 1) (Ev.check (flag i))]
    rfl

lemma chkFrom_setDone (p : Ev) : chkFrom p [Ev.setDone] = true := rfl

lemma checksAtBoundaries_trace (cfg : Config) (flag : Nat → Bool) (n : Nat) :
    checksAtBoundaries (blocksFrom cfg flag 0 n ++ [Ev.setDone]) = true := by
  rw [checksAtBoundaries, chkFrom_append, chkFrom_blocksFrom cfg flag n 0 Ev.hash,
    chkFrom_setDone]
  rfl

/-- Counterexample to C6: there is no separate completion flag — the
completion signal is a store of true into the same AtomicBool poh_exit that
the cancellation request sets (src/poh_service.rs, lines 49-57).  With the
shared flag already true before the first iteration, so that the completion
flag a poller reads is already true, the loop still produces one further
tick before observing the flag and exiting. -/
theorem poh_completion_flag_counterexample :
    pohServiceRun (Config.tick 2) (fun _ => true) 1 =
      some [Ev.hash, Ev.tickEv, Ev.check true, Ev.setDone]
  ∧ [Ev.hash, Ev.tickEv, Ev.check true, Ev.setDone].count Ev.tickEv = 1 := by
  refine ⟨by decide, by decide⟩

/-- C6 (amended): once the shared cancellation flag holds true from iteration
k on, the loop observes it at the end of the current iteration — checks
happen only right after a tick, never mid-hash — and exits after at most one
further tick (at most one cadence period), then stores true again into the
same shared flag (the exit flag doubles as the completion signal; there is no
separate completion flag), after which no further events occur. -/
theorem poh_cancellation_shutdown (cfg : Config) (flag : Nat → Bool) (k fuel : Nat)
    (hset : ∀ m, k ≤ m → flag m = true) (hfuel : k < fuel) :
    ∃ e, e ≤ k ∧ flag e = true ∧ (∀ j, j < e → flag j = false) ∧
      pohServiceRun cfg flag fuel =
        some (blocksFrom cfg flag 0 (e + 1) ++ [Ev.setDone]) ∧
      (blocksFrom cfg flag 0 (e + 1) ++ [Ev.setDone]).count Ev.tickEv = e + 1 ∧
      e + 1 - k ≤ 1 ∧
      checksAtBoundaries (blocksFrom cfg flag 0 (e + 1) ++ [Ev.setDone]) = true := by
  have hsome : (tick_producer cfg flag 0 fuel).isSome :=
    tick_producer_terminates cfg flag fuel 0 ⟨k, Nat.zero_le k, by omega, hset k le_rfl⟩
  obtain ⟨tr, htr⟩ := Option.isSome_iff_exists.mp hsome
  obtain ⟨e, -, -, he3, he4, he5⟩ := tick_producer_blocks cfg flag fuel 0 tr htr
  have hek : e ≤ k := by
    by_contra hgt
    push_neg at hgt
    have hkf := he4 k (Nat.zero_le k) hgt
    rw [hset k le_rfl] at hkf
    exact Bool.noConfusion hkf
  have hblocks : tr = blocksFrom cfg flag 0 (e + 1) := by
    simpa using he5
  refine ⟨e, hek, he3, fun j hj => he4 j (Nat.zero_le j) hj, ?_, ?_, by omega,
    checksAtBoundaries_trace cfg flag (e + 1)⟩
  · rw [pohServiceRun, htr, Option.map_some', hblocks]
  · rw [List.count_append, count_tickEv_blocksFrom cfg flag (e + 1) 0]
    rfl

/-- Witness for C6: cadence Tick(2), the flag set from iteration 1 onward. -/
theorem poh_cancellation_shutdown_witness :
    ∃ e, e ≤ 1 ∧ (fun n => decide (1 ≤ n)) e = true ∧
      (∀ j, j < e → (fun n => decide (1 ≤ n)) j = false) ∧
      pohServiceRun (Config.tick 2) (fun n => decide (1 ≤ n)) 2 =
        some (blocksFrom (Config.tick 2) (fun n => decide (1 ≤ n)) 0 (e + 1) ++
          [Ev.setDone]) ∧
      (blocksFrom (Config.tick 2) (fun n => decide (1 ≤ n)) 0 (e + 1) ++
        [Ev.setDone]).count Ev.tickEv = e + 1 ∧
      e + 1 - 1 ≤ 1 ∧
      checksAtBoundaries (blocksFrom (Config.tick 2) (fun n => decide (1 ≤ n)) 0 (e + 1) ++
        [Ev.setDone]) = true :=
  poh_cancellation_shutdown (Config.tick 2) (fun n => decide (1 ≤ n)) 1 2
    (fun m hm => decide_eq_true hm) (by omega)

/-- C7: under Bounded-Hash-Count(num) each loop iteration performs exactly
num - 1 idle hash advances then one tick; under Fixed-Interval-Sleep each
iteration suspends for the duration and then ticks with zero idle hashes; and
every run of the loop consists exactly of such iterations, each followed by
one flag check. -/
theorem poh_cadence_policies :
    (∀ num : Nat, iterBody (Config.tick num) =
       List.replicate (num - 1) Ev.hash ++ [Ev.tickEv])
  ∧ (∀ d : Nat, iterBody (Config.sleep d) = [Ev.sleepEv d, Ev.tickEv] ∧
       (iterBody (Config.sleep d)).count Ev.hash = 0)
  ∧ (∀ (cfg : Config) (flag : Nat → Bool) (fuel i : Nat) (tr : List Ev),
       tick_producer cfg flag i fuel = some tr →
       ∃ e, i ≤ e ∧ tr = blocksFrom cfg flag i (e + 1 - i)) := by
  refine ⟨?_, ?_, ?_⟩
  · intro num
    simp [iterBody, hashLoop, hashLoopAux_eq_replicate]
  · intro d
    exact ⟨rfl, rfl⟩
  · intro cfg flag fuel i tr h
    obtain ⟨e, he1, -, -, -, he5⟩ := tick_producer_blocks cfg flag fuel i tr h
    exact ⟨e, he1, he5⟩

/-- Witness for C7: one full-speed iteration of Tick(3), and the loop
structure at a concrete run. -/
theorem poh_cadence_policies_witness :
    iterBody (Config.tick 3) = List.replicate 2 Ev.hash ++ [Ev.tickEv]
  ∧ (iterBody (Config.sleep 5) = [Ev.sleepEv 5, Ev.tickEv] ∧
      (iterBody (Config.sleep 5)).count Ev.hash = 0)
  ∧ ∃ e, 0 ≤ e ∧ [Ev.hash, Ev.hash, Ev.tickEv, Ev.check true] =
      blocksFrom (Config.tick 3) (fun _ => true) 0 (e + 1 - 0) :=
  ⟨poh_cadence_policies.1 3, poh_cadence_policies.2.1 5,
    poh_cadence_policies.2.2 (Config.tick 3) (fun _ => true) 1 0
      [Ev.hash, Ev.hash, Ev.tickEv, Ev.check true] (by decide)⟩
